import Mathlib

/-!
Shallow embedding of the `rust-aobench` renderer (src/src/main.rs, with the
`src/ao.rs` revision noted where it differs).  Floating-point `f32`/`float`
values are modelled as real numbers with exact arithmetic; `sqrt`, `sin`,
`cos` and `pi` are the real functions.
-/

namespace AoBench

noncomputable section

/-- The 3-component vector type `vector::Vector3` (fields `x y z : f32`). -/
structure Vector3 where
  x : ℝ
  y : ℝ
  z : ℝ

namespace Vector3

/-- Componentwise addition, `impl Add for Vector3`. -/
def add (a b : Vector3) : Vector3 :=
  ⟨a.x + b.x, a.y + b.y, a.z + b.z⟩

/-- Componentwise subtraction, `impl Sub for Vector3`. -/
def sub (a b : Vector3) : Vector3 :=
  ⟨a.x - b.x, a.y - b.y, a.z - b.z⟩

/-- Dot product, `vector::dot`. -/
def dot (a b : Vector3) : ℝ :=
  a.x * b.x + a.y * b.y + a.z * b.z

/-- Cross product, `vector::cross`. -/
def cross (a b : Vector3) : Vector3 :=
  ⟨a.y * b.z - a.z * b.y, a.z * b.x - a.x * b.z, a.x * b.y - a.y * b.x⟩

/-- Scalar multiple, `vector::scale`. -/
def scale (v : Vector3) (s : ℝ) : Vector3 :=
  ⟨v.x * s, v.y * s, v.z * s⟩

/-- In-place normalisation `Vector3::normalized`, modelled functionally:
`length = sqrt(dot(self,self))`; the components are divided by `length`
when `(length < -1.0e-9) || (length > 1.0e-9)`, otherwise the vector is
returned unchanged. -/
def normalized (v : Vector3) : Vector3 :=
  if Real.sqrt (dot v v) < -1e-9 ∨ 1e-9 < Real.sqrt (dot v v) then
    ⟨v.x / Real.sqrt (dot v v), v.y / Real.sqrt (dot v v), v.z / Real.sqrt (dot v v)⟩
  else v

/-- Constructor `vector::new_normal`: build then normalise. -/
def new_normal (x y z : ℝ) : Vector3 :=
  normalized ⟨x, y, z⟩

end Vector3

/-- A ray, `struct Ray`. -/
structure Ray where
  origin : Vector3
  direction : Vector3

/-- The mutable best-hit record, `struct IntersectInfo`. -/
structure IntersectInfo where
  distance : ℝ
  position : Vector3
  normal : Vector3

/-- Scene primitives: `enum Object { Sphere(center, radius), Plane(point, normal) }`. -/
inductive Object where
  | Sphere (center : Vector3) (radius : ℝ)
  | Plane (point : Vector3) (normal : Vector3)

namespace Object

/-- One step of `Object::intersect(&self, ray, &mut isect) -> bool`, modelled as a
function from the incoming record to the returned flag and the outgoing record.
Sphere arm: `rs = origin - center`, `B = dot(rs, dir)`, `C = dot(rs,rs) - r*r`,
`D = B*B - C`; if `D > 0` the near root `t = -B - sqrt(D)` is tested against
`(t > 0) && (t < isect.distance)` and on success the record is overwritten.
Plane arm: `d = -dot(point, normal)`, `v = dot(dir, normal)`; `|v| < 1e-9` is an
early miss, else `t = -(dot(origin, normal) + d) / v` is tested the same way. -/
def intersect (o : Object) (ray : Ray) (isect : IntersectInfo) : Bool × IntersectInfo :=
  match o with
  | Sphere center radius =>
    let rs := ray.origin.sub center
    let B := Vector3.dot rs ray.direction
    let C := Vector3.dot rs rs - radius * radius
    let D := B * B - C
    if 0 < D then
      let t := -B - Real.sqrt D
      if 0 < t ∧ t < isect.distance then
        let pos := ray.origin.add (ray.direction.scale t)
        (true, ⟨t, pos, (pos.sub center).normalized⟩)
      else (false, isect)
    else (false, isect)
  | Plane point normal =>
    let d := -(Vector3.dot point normal)
    let v := Vector3.dot ray.direction normal
    if |v| < 1e-9 then (false, isect)
    else
      let t := -(Vector3.dot ray.origin normal + d) / v
      if 0 < t ∧ t < isect.distance then
        let pos := ray.origin.add (ray.direction.scale t)
        (true, ⟨t, pos, normal⟩)
      else (false, isect)

/-- The candidate hit distance an object offers along a ray, before the
`(t > 0.0) && (t < isect.distance)` acceptance test: the sphere's near root
`-B - sqrt(D)` when the discriminant `D` is positive, the plane's
`t = -(dot(origin, normal) + d) / v` when `|v| >= 1e-9`, and `none` when the
arm misses unconditionally. -/
def hitT (o : Object) (ray : Ray) : Option ℝ :=
  match o with
  | Sphere center radius =>
    let rs := ray.origin.sub center
    let B := Vector3.dot rs ray.direction
    let C := Vector3.dot rs rs - radius * radius
    let D := B * B - C
    if 0 < D then some (-B - Real.sqrt D) else none
  | Plane point normal =>
    let d := -(Vector3.dot point normal)
    let v := Vector3.dot ray.direction normal
    if |v| < 1e-9 then none
    else some (-(Vector3.dot ray.origin normal + d) / v)

/-- The record `intersect` commits on a successful hit at distance `t`:
distance `t`, position `origin + t * direction`, and the arm's normal
(normalised offset from the centre for a sphere, the stored plane normal
for a plane). -/
def hitRecord (o : Object) (ray : Ray) (t : ℝ) : IntersectInfo :=
  let pos := ray.origin.add (ray.direction.scale t)
  match o with
  | Sphere center _ => ⟨t, pos, (pos.sub center).normalized⟩
  | Plane _ normal => ⟨t, pos, normal⟩

/-- The committed record's distance field is the hit distance. -/
theorem hitRecord_distance (o : Object) (ray : Ray) (t : ℝ) :
    (hitRecord o ray t).distance = t := by
  cases o <;> rfl

/-- The committed record's position field is `origin + t * direction`. -/
theorem hitRecord_position (o : Object) (ray : Ray) (t : ℝ) :
    (hitRecord o ray t).position = ray.origin.add (ray.direction.scale t) := by
  cases o <;> rfl

/-- Complete characterisation of `intersect` by the candidate distance:
the test accepts exactly when the candidate exists and lies strictly between
`0` and the incoming `isect.distance`, in which case the returned record is
`hitRecord`; in every other case the flag is `false` and the record is
returned as it came in. -/
theorem intersect_eq (o : Object) (ray : Ray) (isect : IntersectInfo) :
    Object.intersect o ray isect =
      match hitT o ray with
      | some t =>
        if 0 < t ∧ t < isect.distance then (true, hitRecord o ray t) else (false, isect)
      | none => (false, isect) := by
  cases o with
  | Sphere center radius =>
    simp only [Object.intersect, hitT, hitRecord]
    by_cases hD : 0 < (Vector3.dot (ray.origin.sub center) ray.direction) *
        (Vector3.dot (ray.origin.sub center) ray.direction) -
        (Vector3.dot (ray.origin.sub center) (ray.origin.sub center) - radius * radius)
    · simp only [if_pos hD]
    · simp only [if_neg hD]
  | Plane point normal =>
    simp only [Object.intersect, hitT, hitRecord]
    by_cases hv : |Vector3.dot ray.direction normal| < 1e-9
    · simp only [if_pos hv]
    · simp only [if_neg hv]

/-- When the candidate distance is accepted, `intersect` returns `true` and
commits the hit record. -/
theorem intersect_commit (o : Object) (ray : Ray) (isect : IntersectInfo) (t : ℝ)
    (ht : hitT o ray = some t) (h0 : 0 < t) (hd : t < isect.distance) :
    Object.intersect o ray isect = (true, hitRecord o ray t) := by
  rw [intersect_eq, ht]
  exact if_pos ⟨h0, hd⟩

/-- When no candidate distance is accepted, `intersect` returns `false` and the
incoming record unchanged. -/
theorem intersect_miss (o : Object) (ray : Ray) (isect : IntersectInfo)
    (h : ∀ t, hitT o ray = some t → ¬(0 < t ∧ t < isect.distance)) :
    Object.intersect o ray isect = (false, isect) := by
  rw [intersect_eq]
  cases ht : hitT o ray with
  | none => rfl
  | some t => exact if_neg (h t ht)

/-- The returned flag is `true` exactly when some candidate distance is
accepted. -/
theorem intersect_fst_iff (o : Object) (ray : Ray) (isect : IntersectInfo) :
    (Object.intersect o ray isect).1 = true ↔
      ∃ t, hitT o ray = some t ∧ 0 < t ∧ t < isect.distance := by
  constructor
  · intro h
    by_contra hn
    push_neg at hn
    have : Object.intersect o ray isect = (false, isect) := by
      apply intersect_miss
      intro t ht hc
      exact absurd hc.2 (by simpa using hn t ht hc.1)
    rw [this] at h
    simp at h
  · rintro ⟨t, ht, h0, hd⟩
    rw [intersect_commit o ray isect t ht h0 hd]

/-- A `false` return leaves the record untouched. -/
theorem intersect_frame (o : Object) (ray : Ray) (isect : IntersectInfo)
    (h : (Object.intersect o ray isect).1 = false) :
    (Object.intersect o ray isect).2 = isect := by
  rw [intersect_eq] at h ⊢
  cases ht : hitT o ray with
  | none => rfl
  | some t =>
    rw [ht] at h
    dsimp only at h ⊢
    by_cases hc : 0 < t ∧ t < isect.distance
    · rw [if_pos hc] at h
      simp at h
    · rw [if_neg hc]

/-- The outgoing best distance never exceeds the incoming one. -/
theorem intersect_distance_le (o : Object) (ray : Ray) (isect : IntersectInfo) :
    (Object.intersect o ray isect).2.distance ≤ isect.distance := by
  rw [intersect_eq]
  cases ht : hitT o ray with
  | none => exact le_refl _
  | some t =>
    dsimp only
    by_cases hc : 0 < t ∧ t < isect.distance
    · rw [if_pos hc]
      show (hitRecord o ray t).distance ≤ isect.distance
      rw [hitRecord_distance]
      exact le_of_lt hc.2
    · rw [if_neg hc]

end Object

/-- C1: for every object, ray and best record, `intersect` returns `true` and
overwrites the record exactly when the object produces a candidate hit at a
distance `t` with `0 < t < best.distance` (committing that hit's distance,
position and normal); otherwise it returns `false` and leaves every field of
the best record (distance, position, normal) unchanged. -/
theorem claim_C1_intersect_contract (o : Object) (ray : Ray) (best : IntersectInfo) :
    ((Object.intersect o ray best).1 = true ↔
      ∃ t, Object.hitT o ray = some t ∧ 0 < t ∧ t < best.distance) ∧
    (∀ t, Object.hitT o ray = some t → 0 < t → t < best.distance →
      Object.intersect o ray best = (true, Object.hitRecord o ray t)) ∧
    ((Object.intersect o ray best).1 = false →
      (Object.intersect o ray best).2.distance = best.distance ∧
      (Object.intersect o ray best).2.position = best.position ∧
      (Object.intersect o ray best).2.normal = best.normal) := by
  refine ⟨Object.intersect_fst_iff o ray best, Object.intersect_commit o ray best, ?_⟩
  intro h
  rw [Object.intersect_frame o ray best h]
  exact ⟨rfl, rfl, rfl⟩

/-- C1 witness: a ray fired from the origin straight at the sphere of radius 1
centred at `(0,0,-3)` is committed at distance `2`. -/
theorem claim_C1_intersect_contract_witness :
    Object.intersect (Object.Sphere ⟨0, 0, -3⟩ 1) ⟨⟨0, 0, 0⟩, ⟨0, 0, -1⟩⟩
        ⟨1e17, ⟨0, 0, 0⟩, ⟨0, 1, 0⟩⟩ =
      (true, Object.hitRecord (Object.Sphere ⟨0, 0, -3⟩ 1) ⟨⟨0, 0, 0⟩, ⟨0, 0, -1⟩⟩ 2) :=
  (claim_C1_intersect_contract (Object.Sphere ⟨0, 0, -3⟩ 1) ⟨⟨0, 0, 0⟩, ⟨0, 0, -1⟩⟩
      ⟨1e17, ⟨0, 0, 0⟩, ⟨0, 1, 0⟩⟩).2.1 2
    (by simp only [Object.hitT, Vector3.sub, Vector3.dot]; norm_num [Real.sqrt_one])
    (by norm_num) (by norm_num)

/-- Scene traversal as written in `render_line`: call each object's
`intersect` in declaration order against the single shared record, OR-ing the
returned flags. -/
def intersectScene (objects : List Object) (ray : Ray) (isect : IntersectInfo) :
    Bool × IntersectInfo :=
  match objects with
  | [] => (false, isect)
  | o :: rest =>
    let r := Object.intersect o ray isect
    let rr := intersectScene rest ray r.2
    (r.1 || rr.1, rr.2)

/-- The positive candidate distance an object offers along a ray, if any. -/
def posT (o : Object) (ray : Ray) : Option ℝ :=
  match Object.hitT o ray with
  | some t => if 0 < t then some t else none
  | none => none

/-- All positive candidate distances the scene offers along a ray, in
declaration order. -/
def posTs (objects : List Object) (ray : Ray) : List ℝ :=
  objects.filterMap (fun o => posT o ray)

/-- The candidate distance an object offers that would beat a best distance of
`dlim`, if any. -/
def validT (o : Object) (ray : Ray) (dlim : ℝ) : Option ℝ :=
  match Object.hitT o ray with
  | some t => if 0 < t ∧ t < dlim then some t else none
  | none => none

/-- All candidate distances in the scene beating `dlim`, in declaration
order. -/
def validTs (objects : List Object) (ray : Ray) (dlim : ℝ) : List ℝ :=
  objects.filterMap (fun o => validT o ray dlim)

theorem foldr_min_min (l : List ℝ) (t d : ℝ) :
    l.foldr min (min t d) = min t (l.foldr min d) := by
  induction l with
  | nil => rfl
  | cons a l ih => simp only [List.foldr_cons, ih, min_left_comm]

theorem foldr_min_le_init (l : List ℝ) (d : ℝ) : l.foldr min d ≤ d := by
  induction l with
  | nil => exact le_refl d
  | cons a l ih => exact le_trans (min_le_right _ _) ih

theorem foldr_min_le_mem (l : List ℝ) (d a : ℝ) (h : a ∈ l) : l.foldr min d ≤ a := by
  induction l with
  | nil => cases h
  | cons b l ih =>
    rcases List.mem_cons.mp h with hb | hl
    · rw [hb]
      exact min_le_left _ _
    · exact le_trans (min_le_right _ _) (ih hl)

/-- The distance left in the shared record by a scene traversal is the minimum
of the incoming distance and every positive candidate distance in the scene. -/
theorem intersectScene_distance (objects : List Object) (ray : Ray) (isect : IntersectInfo) :
    (intersectScene objects ray isect).2.distance =
      (posTs objects ray).foldr min isect.distance := by
  induction objects generalizing isect with
  | nil => rfl
  | cons o rest ih =>
    show (intersectScene rest ray (Object.intersect o ray isect).2).2.distance = _
    cases ht : Object.hitT o ray with
    | none =>
      have hmiss : Object.intersect o ray isect = (false, isect) :=
        Object.intersect_miss o ray isect (by intro t h; rw [ht] at h; cases h)
      have hpos : posTs (o :: rest) ray = posTs rest ray := by
        simp [posTs, List.filterMap_cons, posT, ht]
      rw [hmiss, hpos]
      exact ih isect
    | some t =>
      by_cases h0 : 0 < t
      · by_cases hd : t < isect.distance
        · have hcommit := Object.intersect_commit o ray isect t ht h0 hd
          have hpos : posTs (o :: rest) ray = t :: posTs rest ray := by
            simp [posTs, List.filterMap_cons, posT, ht, if_pos h0]
          rw [hcommit, hpos]
          show (intersectScene rest ray (Object.hitRecord o ray t)).2.distance = _
          rw [ih, Object.hitRecord_distance, List.foldr_cons, ← foldr_min_min,
            min_eq_left (le_of_lt hd)]
        · have hmiss : Object.intersect o ray isect = (false, isect) := by
            apply Object.intersect_miss
            intro t₂ h₂ hc
            rw [ht] at h₂
            cases h₂
            exact hd hc.2
          have hpos : posTs (o :: rest) ray = t :: posTs rest ray := by
            simp [posTs, List.filterMap_cons, posT, ht, if_pos h0]
          rw [hmiss, hpos]
          show (intersectScene rest ray isect).2.distance = _
          rw [ih, List.foldr_cons]
          exact (min_eq_right (le_trans (foldr_min_le_init _ _) (le_of_not_lt hd))).symm
      · have hmiss : Object.intersect o ray isect = (false, isect) := by
          apply Object.intersect_miss
          intro t₂ h₂ hc
          rw [ht] at h₂
          cases h₂
          exact h0 hc.1
        have hpos : posTs (o :: rest) ray = posTs rest ray := by
          simp [posTs, List.filterMap_cons, posT, ht, if_neg h0]
        rw [hmiss, hpos]
        exact ih isect

/-- A traversal that reports no hit leaves the shared record untouched. -/
theorem intersectScene_frame (objects : List Object) (ray : Ray) (isect : IntersectInfo)
    (h : (intersectScene objects ray isect).1 = false) :
    (intersectScene objects ray isect).2 = isect := by
  induction objects generalizing isect with
  | nil => rfl
  | cons o rest ih =>
    have hsplit : ((Object.intersect o ray isect).1 ||
        (intersectScene rest ray (Object.intersect o ray isect).2).1) = false := h
    rcases Bool.or_eq_false_iff.mp hsplit with ⟨h1, h2⟩
    have hfr := Object.intersect_frame o ray isect h1
    show (intersectScene rest ray (Object.intersect o ray isect).2).2 = isect
    rw [hfr] at h2 ⊢
    exact ih isect h2

/-- A traversal that reports a hit commits the record of the first-declared
object whose candidate distance beats the incoming record; no earlier-declared
object offers that distance. -/
theorem intersectScene_commit (objects : List Object) (ray : Ray) (isect : IntersectInfo)
    (h : (intersectScene objects ray isect).1 = true) :
    ∃ pre o post m, objects = pre ++ o :: post ∧ Object.hitT o ray = some m ∧
      0 < m ∧ m < isect.distance ∧
      (intersectScene objects ray isect).2 = Object.hitRecord o ray m ∧
      ∀ o₂ ∈ pre, Object.hitT o₂ ray ≠ some m := by
  induction objects generalizing isect with
  | nil => cases h
  | cons o rest ih =>
    show ∃ pre o₁ post m, o :: rest = pre ++ o₁ :: post ∧ _
    cases hrr : (intersectScene rest ray (Object.intersect o ray isect).2).1 with
    | true =>
      obtain ⟨pre₂, o₂, post₂, m, hsplit, hhit, h0, hd, hrec, hpre⟩ := ih _ hrr
      refine ⟨o :: pre₂, o₂, post₂, m, by rw [List.cons_append, hsplit], hhit, h0,
        lt_of_lt_of_le hd (Object.intersect_distance_le o ray isect), hrec, ?_⟩
      intro o₃ h₃
      rcases List.mem_cons.mp h₃ with rfl | hmem
      · cases hflag : (Object.intersect o₃ ray isect).1 with
        | true =>
          obtain ⟨t₀, ht₀, h₀₀, hd₀⟩ := (Object.intersect_fst_iff o₃ ray isect).mp hflag
          have hc := Object.intersect_commit o₃ ray isect t₀ ht₀ h₀₀ hd₀
          rw [hc] at hd
          rw [Object.hitRecord_distance] at hd
          intro hcontra
          rw [ht₀] at hcontra
          cases hcontra
          exact lt_irrefl m hd
        | false =>
          have hfr := Object.intersect_frame o₃ ray isect hflag
          rw [hfr] at hd
          intro hcontra
          exact absurd ((Object.intersect_fst_iff o₃ ray isect).mpr ⟨m, hcontra, h0, hd⟩)
            (by rw [hflag]; simp)
      · exact hpre o₃ hmem
    | false =>
      have hr2 := intersectScene_frame rest ray _ hrr
      have hr1 : (Object.intersect o ray isect).1 = true := by
        have hstep : (intersectScene (o :: rest) ray isect).1 =
            ((Object.intersect o ray isect).1 ||
             (intersectScene rest ray (Object.intersect o ray isect).2).1) := rfl
        rw [hstep, hrr, Bool.or_false] at h
        exact h
      obtain ⟨t₀, ht₀, h₀₀, hd₀⟩ := (Object.intersect_fst_iff o ray isect).mp hr1
      have hcommit := Object.intersect_commit o ray isect t₀ ht₀ h₀₀ hd₀
      refine ⟨[], o, rest, t₀, rfl, ht₀, h₀₀, hd₀, ?_, by intro o₂ h₂; cases h₂⟩
      show (intersectScene rest ray (Object.intersect o ray isect).2).2 = _
      rw [hr2, hcommit]

/-- The traversal reports a hit exactly when some object's candidate distance
beats the incoming record. -/
theorem intersectScene_fst_iff (objects : List Object) (ray : Ray) (isect : IntersectInfo) :
    (intersectScene objects ray isect).1 = true ↔
      ∃ o ∈ objects, ∃ t, Object.hitT o ray = some t ∧ 0 < t ∧ t < isect.distance := by
  constructor
  · intro h
    obtain ⟨pre, o, post, m, hsplit, hhit, h0, hd, _, _⟩ := intersectScene_commit _ _ _ h
    exact ⟨o, by rw [hsplit]; exact List.mem_append_right _ (List.mem_cons_self _ _),
      m, hhit, h0, hd⟩
  · rintro ⟨o, ho, t, ht, h0, hd⟩
    by_contra hfalse
    have hf : (intersectScene objects ray isect).1 = false := by
      cases hh : (intersectScene objects ray isect).1
      · rfl
      · exact absurd hh hfalse
    have hframe := intersectScene_frame _ _ _ hf
    have hdist := intersectScene_distance objects ray isect
    rw [hframe] at hdist
    have hmem : t ∈ posTs objects ray :=
      List.mem_filterMap.mpr ⟨o, ho, by simp [posT, ht, if_pos h0]⟩
    have hle := foldr_min_le_mem (posTs objects ray) isect.distance t hmem
    rw [← hdist] at hle
    exact absurd hd (not_lt.mpr hle)

/-- The distance left by the traversal does not depend on declaration order. -/
theorem intersectScene_distance_perm (objects objs₂ : List Object) (ray : Ray)
    (isect : IntersectInfo) (h : objs₂.Perm objects) :
    (intersectScene objs₂ ray isect).2.distance =
      (intersectScene objects ray isect).2.distance := by
  haveI : LeftCommutative (min : ℝ → ℝ → ℝ) := ⟨fun a b c => by rw [min_left_comm]⟩
  rw [intersectScene_distance, intersectScene_distance]
  exact (h.filterMap _).foldr_eq isect.distance

/-- If the image of a list under a partial map has pairwise-distinct entries,
any two list members mapped to the same value are equal. -/
theorem filterMap_pairwise_ne_inj {α β : Type} (l : List α) (f : α → Option β)
    (h : (l.filterMap f).Pairwise (fun a b => a ≠ b)) :
    ∀ a ∈ l, ∀ b ∈ l, ∀ m, f a = some m → f b = some m → a = b := by
  induction l with
  | nil =>
    intro a ha
    cases ha
  | cons c l ih =>
    intro a ha b hb m fa fb
    cases hc : f c with
    | some v =>
      rw [List.filterMap_cons_some hc] at h
      have hpair := List.pairwise_cons.mp h
      rcases List.mem_cons.mp ha with rfl | ha₂ <;> rcases List.mem_cons.mp hb with rfl | hb₂
      · rfl
      · rw [hc] at fa
        cases fa
        exact absurd rfl (hpair.1 m (List.mem_filterMap.mpr ⟨b, hb₂, fb⟩))
      · rw [hc] at fb
        cases fb
        exact absurd rfl (hpair.1 m (List.mem_filterMap.mpr ⟨a, ha₂, fa⟩))
      · exact ih hpair.2 a ha₂ b hb₂ m fa fb
    | none =>
      rw [List.filterMap_cons_none hc] at h
      rcases List.mem_cons.mp ha with rfl | ha₂
      · rw [hc] at fa
        cases fa
      · rcases List.mem_cons.mp hb with rfl | hb₂
        · rw [hc] at fb
          cases fb
        · exact ih h a ha₂ b hb₂ m fa fb

/-- When no two scene objects offer the same record-beating candidate distance,
the whole traversal result is invariant under permutation of declaration
order. -/
theorem intersectScene_perm (objects objs₂ : List Object) (ray : Ray) (isect : IntersectInfo)
    (hperm : objs₂.Perm objects)
    (hties : (validTs objects ray isect.distance).Pairwise (fun a b => a ≠ b)) :
    intersectScene objs₂ ray isect = intersectScene objects ray isect := by
  have hiff : (intersectScene objs₂ ray isect).1 = true ↔
      (intersectScene objects ray isect).1 = true := by
    rw [intersectScene_fst_iff, intersectScene_fst_iff]
    constructor
    · rintro ⟨o, ho, hrest⟩
      exact ⟨o, hperm.mem_iff.mp ho, hrest⟩
    · rintro ⟨o, ho, hrest⟩
      exact ⟨o, hperm.mem_iff.mpr ho, hrest⟩
  cases hflag : (intersectScene objects ray isect).1 with
  | false =>
    have h₂ : (intersectScene objs₂ ray isect).1 = false := by
      cases hh : (intersectScene objs₂ ray isect).1
      · rfl
      · rw [hflag] at hiff
        exact absurd (hiff.mp hh) (by simp)
    rw [Prod.ext_iff]
    refine ⟨by rw [h₂, hflag], ?_⟩
    rw [intersectScene_frame _ _ _ h₂, intersectScene_frame _ _ _ hflag]
  | true =>
    have h₂ : (intersectScene objs₂ ray isect).1 = true := hiff.mpr hflag
    obtain ⟨pre, o, post, m, hsplit, hhit, h0, hd, hrec, _⟩ :=
      intersectScene_commit objects ray isect hflag
    obtain ⟨pre₂, o₂, post₂, m₂, hsplit₂, hhit₂, h0₂, hd₂, hrec₂, _⟩ :=
      intersectScene_commit objs₂ ray isect h₂
    have hmemo : o ∈ objects := by
      rw [hsplit]
      exact List.mem_append_right _ (List.mem_cons_self _ _)
    have hmemo₂ : o₂ ∈ objects := by
      apply hperm.mem_iff.mp
      rw [hsplit₂]
      exact List.mem_append_right _ (List.mem_cons_self _ _)
    have hm : m₂ = m := by
      have := intersectScene_distance_perm objects objs₂ ray isect hperm
      rw [hrec, hrec₂, Object.hitRecord_distance, Object.hitRecord_distance] at this
      exact this
    have hvalid : validT o ray isect.distance = some m := by
      simp only [validT, hhit]
      rw [if_pos ⟨h0, hd⟩]
    have hvalid₂ : validT o₂ ray isect.distance = some m := by
      simp only [validT, hhit₂]
      rw [hm] at hd₂ ⊢
      rw [if_pos ⟨hm ▸ h0₂, hd₂⟩]
    have hobj : o₂ = o :=
      filterMap_pairwise_ne_inj objects (fun o => validT o ray isect.distance) hties
        o₂ hmemo₂ o hmemo m hvalid₂ hvalid
    rw [Prod.ext_iff]
    refine ⟨by rw [h₂, hflag], ?_⟩
    rw [hrec, hrec₂, hobj, hm]

/-- C2: iterating `intersect` over the scene list in declaration order against
one shared record leaves the record at the globally nearest positive candidate
distance; on a hit the committed record belongs to an object attaining the
global minimum of the positive hit distances, preceded by no object offering
that same distance (exact ties resolve to the first-declared object); the
resulting distance is invariant under permutation of declaration order, and
the whole result is invariant when no two objects offer the same
record-beating distance. -/
theorem claim_C2_scene_nearest (objects : List Object) (ray : Ray) (init : IntersectInfo) :
    ((intersectScene objects ray init).2.distance =
        (posTs objects ray).foldr min init.distance) ∧
    (∀ o ∈ objects, ∀ t, Object.hitT o ray = some t → 0 < t →
        (intersectScene objects ray init).2.distance ≤ t) ∧
    ((intersectScene objects ray init).1 = true →
      ∃ pre o post m, objects = pre ++ o :: post ∧ Object.hitT o ray = some m ∧
        0 < m ∧ m < init.distance ∧
        (intersectScene objects ray init).2 = Object.hitRecord o ray m ∧
        (∀ o₂ ∈ objects, ∀ t₂, Object.hitT o₂ ray = some t₂ → 0 < t₂ → m ≤ t₂) ∧
        (∀ o₂ ∈ pre, Object.hitT o₂ ray ≠ some m)) ∧
    ((intersectScene objects ray init).1 = false →
        (intersectScene objects ray init).2 = init) ∧
    (∀ objs₂, objs₂.Perm objects →
      (intersectScene objs₂ ray init).2.distance =
          (intersectScene objects ray init).2.distance ∧
        ((validTs objects ray init.distance).Pairwise (fun a b => a ≠ b) →
          intersectScene objs₂ ray init = intersectScene objects ray init)) := by
  refine ⟨intersectScene_distance objects ray init, ?_, ?_,
    intersectScene_frame objects ray init, ?_⟩
  · intro o ho t ht h0
    rw [intersectScene_distance]
    exact foldr_min_le_mem _ _ t
      (List.mem_filterMap.mpr ⟨o, ho, by simp [posT, ht, if_pos h0]⟩)
  · intro h
    obtain ⟨pre, o, post, m, hsplit, hhit, h0, hd, hrec, hpre⟩ :=
      intersectScene_commit objects ray init h
    refine ⟨pre, o, post, m, hsplit, hhit, h0, hd, hrec, ?_, hpre⟩
    intro o₂ ho₂ t₂ ht₂ h0₂
    have hm : (intersectScene objects ray init).2.distance = m := by
      rw [hrec, Object.hitRecord_distance]
    rw [← hm, intersectScene_distance]
    exact foldr_min_le_mem _ _ t₂
      (List.mem_filterMap.mpr ⟨o₂, ho₂, by simp [posT, ht₂, if_pos h0₂]⟩)
  · intro objs₂ hp
    exact ⟨intersectScene_distance_perm objects objs₂ ray init hp,
      fun hties => intersectScene_perm objects objs₂ ray init hp hties⟩

/-- C2 witness: for a ray down the negative z-axis against two spheres hit at
distances 2 and 5, swapping the declaration order leaves the traversal result
unchanged. -/
theorem claim_C2_scene_nearest_witness :
    intersectScene [Object.Sphere ⟨0, 0, -6⟩ 1, Object.Sphere ⟨0, 0, -3⟩ 1]
        ⟨⟨0, 0, 0⟩, ⟨0, 0, -1⟩⟩ ⟨1e17, ⟨0, 0, 0⟩, ⟨0, 1, 0⟩⟩ =
      intersectScene [Object.Sphere ⟨0, 0, -3⟩ 1, Object.Sphere ⟨0, 0, -6⟩ 1]
        ⟨⟨0, 0, 0⟩, ⟨0, 0, -1⟩⟩ ⟨1e17, ⟨0, 0, 0⟩, ⟨0, 1, 0⟩⟩ :=
  ((claim_C2_scene_nearest [Object.Sphere ⟨0, 0, -3⟩ 1, Object.Sphere ⟨0, 0, -6⟩ 1]
      ⟨⟨0, 0, 0⟩, ⟨0, 0, -1⟩⟩ ⟨1e17, ⟨0, 0, 0⟩, ⟨0, 1, 0⟩⟩).2.2.2.2
    [Object.Sphere ⟨0, 0, -6⟩ 1, Object.Sphere ⟨0, 0, -3⟩ 1]
    (List.Perm.swap _ _ _)).2 (by
      have h1 : Object.hitT (Object.Sphere ⟨0, 0, -3⟩ 1) ⟨⟨0, 0, 0⟩, ⟨0, 0, -1⟩⟩ = some 2 := by
        simp only [Object.hitT, Vector3.sub, Vector3.dot]
        norm_num [Real.sqrt_one]
      have h2 : Object.hitT (Object.Sphere ⟨0, 0, -6⟩ 1) ⟨⟨0, 0, 0⟩, ⟨0, 0, -1⟩⟩ = some 5 := by
        simp only [Object.hitT, Vector3.sub, Vector3.dot]
        norm_num [Real.sqrt_one]
      have hv1 : validT (Object.Sphere ⟨0, 0, -3⟩ 1) ⟨⟨0, 0, 0⟩, ⟨0, 0, -1⟩⟩
          (IntersectInfo.mk 1e17 ⟨0, 0, 0⟩ ⟨0, 1, 0⟩).distance = some 2 := by
        simp only [validT, h1]
        rw [if_pos]
        constructor <;> norm_num
      have hv2 : validT (Object.Sphere ⟨0, 0, -6⟩ 1) ⟨⟨0, 0, 0⟩, ⟨0, 0, -1⟩⟩
          (IntersectInfo.mk 1e17 ⟨0, 0, 0⟩ ⟨0, 1, 0⟩).distance = some 5 := by
        simp only [validT, h2]
        rw [if_pos]
        constructor <;> norm_num
      have hlist : validTs [Object.Sphere ⟨0, 0, -3⟩ 1, Object.Sphere ⟨0, 0, -6⟩ 1]
          ⟨⟨0, 0, 0⟩, ⟨0, 0, -1⟩⟩ (IntersectInfo.mk 1e17 ⟨0, 0, 0⟩ ⟨0, 1, 0⟩).distance
          = [2, 5] := by
        simp only [validTs, List.filterMap_cons, List.filterMap_nil, hv1, hv2]
      rw [hlist]
      simp only [List.pairwise_cons, List.mem_singleton, List.Pairwise.nil]
      norm_num)

/-- C6: `normalized()` produces a vector of length exactly 1 (in the real
model, hence within floating tolerance) whenever the length exceeds 1e-9, and
returns the vector unchanged whenever the length lies in `[-1e-9, 1e-9]`. -/
theorem claim_C6_normalized_unit (v : Vector3) :
    (1e-9 < Real.sqrt (Vector3.dot v v) →
      Real.sqrt (Vector3.dot v.normalized v.normalized) = 1) ∧
    (-1e-9 ≤ Real.sqrt (Vector3.dot v v) ∧ Real.sqrt (Vector3.dot v v) ≤ 1e-9 →
      v.normalized = v) := by
  have hnn : 0 ≤ Vector3.dot v v :=
    add_nonneg (add_nonneg (mul_self_nonneg v.x) (mul_self_nonneg v.y)) (mul_self_nonneg v.z)
  constructor
  · intro h
    have hL : 0 < Real.sqrt (Vector3.dot v v) := lt_trans (by norm_num) h
    have hpos : 0 < Vector3.dot v v := Real.sqrt_pos.mp hL
    have hnv : v.normalized =
        ⟨v.x / Real.sqrt (Vector3.dot v v), v.y / Real.sqrt (Vector3.dot v v),
         v.z / Real.sqrt (Vector3.dot v v)⟩ := by
      rw [Vector3.normalized, if_pos (Or.inr h)]
    rw [hnv]
    have hd : Vector3.dot
        ⟨v.x / Real.sqrt (Vector3.dot v v), v.y / Real.sqrt (Vector3.dot v v),
         v.z / Real.sqrt (Vector3.dot v v)⟩
        ⟨v.x / Real.sqrt (Vector3.dot v v), v.y / Real.sqrt (Vector3.dot v v),
         v.z / Real.sqrt (Vector3.dot v v)⟩ = 1 := by
      show v.x / Real.sqrt (Vector3.dot v v) * (v.x / Real.sqrt (Vector3.dot v v)) +
          v.y / Real.sqrt (Vector3.dot v v) * (v.y / Real.sqrt (Vector3.dot v v)) +
          v.z / Real.sqrt (Vector3.dot v v) * (v.z / Real.sqrt (Vector3.dot v v)) = 1
      have hsum : v.x / Real.sqrt (Vector3.dot v v) * (v.x / Real.sqrt (Vector3.dot v v)) +
          v.y / Real.sqrt (Vector3.dot v v) * (v.y / Real.sqrt (Vector3.dot v v)) +
          v.z / Real.sqrt (Vector3.dot v v) * (v.z / Real.sqrt (Vector3.dot v v)) =
          (v.x * v.x + v.y * v.y + v.z * v.z) /
            (Real.sqrt (Vector3.dot v v) * Real.sqrt (Vector3.dot v v)) := by
        ring
      rw [hsum, Real.mul_self_sqrt hnn]
      show (v.x * v.x + v.y * v.y + v.z * v.z) / Vector3.dot v v = 1
      rw [show v.x * v.x + v.y * v.y + v.z * v.z = Vector3.dot v v from rfl]
      exact div_self (ne_of_gt hpos)
    rw [hd, Real.sqrt_one]
  · intro h
    rw [Vector3.normalized, if_neg]
    rintro (hlt | hgt)
    · exact absurd hlt (not_lt.mpr h.1)
    · exact absurd hgt (not_lt.mpr h.2)

/-- C6 witness: the zero vector is left unchanged and the vector (3,4,0) of
length 5 is normalised to unit length. -/
theorem claim_C6_normalized_unit_witness :
    Vector3.normalized ⟨0, 0, 0⟩ = (⟨0, 0, 0⟩ : Vector3) ∧
    Real.sqrt (Vector3.dot (Vector3.normalized ⟨3, 4, 0⟩) (Vector3.normalized ⟨3, 4, 0⟩)) = 1 := by
  constructor
  · apply (claim_C6_normalized_unit ⟨0, 0, 0⟩).2
    have h0 : Vector3.dot ⟨0, 0, 0⟩ ⟨0, 0, 0⟩ = 0 := by
      simp [Vector3.dot]
    rw [h0, Real.sqrt_zero]
    constructor <;> norm_num
  · apply (claim_C6_normalized_unit ⟨3, 4, 0⟩).1
    have h25 : Vector3.dot ⟨3, 4, 0⟩ ⟨3, 4, 0⟩ = 25 := by
      simp [Vector3.dot]
      norm_num
    rw [h25, show (25 : ℝ) = 5 ^ 2 by norm_num, Real.sqrt_sq (by norm_num : (0:ℝ) ≤ 5)]
    norm_num

/-- C10: the computed length is a real square root, hence nonnegative, so the
branch `length < -1e-9` is unreachable and the disjunctive guard collapses to
`length > 1e-9`; `normalized` therefore equals the variant using only the
positive test. -/
theorem claim_C10_guard_redundant (v : Vector3) :
    0 ≤ Real.sqrt (Vector3.dot v v) ∧
    ¬(Real.sqrt (Vector3.dot v v) < -1e-9) ∧
    ((Real.sqrt (Vector3.dot v v) < -1e-9 ∨ 1e-9 < Real.sqrt (Vector3.dot v v)) ↔
      1e-9 < Real.sqrt (Vector3.dot v v)) ∧
    v.normalized = (if 1e-9 < Real.sqrt (Vector3.dot v v) then
        (⟨v.x / Real.sqrt (Vector3.dot v v), v.y / Real.sqrt (Vector3.dot v v),
          v.z / Real.sqrt (Vector3.dot v v)⟩ : Vector3) else v) := by
  have hsq := Real.sqrt_nonneg (Vector3.dot v v)
  have hneg : ¬(Real.sqrt (Vector3.dot v v) < -1e-9) := by
    intro h
    have : (0:ℝ) < -1e-9 := lt_of_le_of_lt hsq h
    norm_num at this
  have hiff : (Real.sqrt (Vector3.dot v v) < -1e-9 ∨ 1e-9 < Real.sqrt (Vector3.dot v v)) ↔
      1e-9 < Real.sqrt (Vector3.dot v v) :=
    ⟨fun h => h.resolve_left hneg, Or.inr⟩
  refine ⟨hsq, hneg, hiff, ?_⟩
  rw [Vector3.normalized]
  by_cases h : 1e-9 < Real.sqrt (Vector3.dot v v)
  · rw [if_pos (Or.inr h), if_pos h]
  · rw [if_neg (fun hc => h (hiff.mp hc)), if_neg h]

/-- C7: a ray that is near-parallel to a plane, `|dot(direction, normal)| <
1e-9` — in particular an exactly parallel ray — makes the Plane arm report a
miss and leave the best record unchanged, whatever the origin; the division by
the denominator happens only in the other branch. -/
theorem claim_C7_plane_parallel (point normal : Vector3) (ray : Ray) (best : IntersectInfo)
    (h : |Vector3.dot ray.direction normal| < 1e-9) :
    Object.intersect (Object.Plane point normal) ray best = (false, best) := by
  simp only [Object.intersect]
  rw [if_pos h]

/-- C7 witness: a ray running along the x-axis over the ground plane with
normal (0,1,0), with dot(direction, normal) exactly 0, misses. -/
theorem claim_C7_plane_parallel_witness :
    Object.intersect (Object.Plane ⟨0, 0, 0⟩ ⟨0, 1, 0⟩) ⟨⟨5, 7, 9⟩, ⟨1, 0, 0⟩⟩
        ⟨1e17, ⟨0, 0, 0⟩, ⟨0, 1, 0⟩⟩ =
      (false, ⟨1e17, ⟨0, 0, 0⟩, ⟨0, 1, 0⟩⟩) := by
  apply claim_C7_plane_parallel
  have h0 : Vector3.dot ⟨1, 0, 0⟩ ⟨0, 1, 0⟩ = 0 := by
    simp [Vector3.dot]
  show |Vector3.dot ⟨1, 0, 0⟩ ⟨0, 1, 0⟩| < 1e-9
  rw [h0, abs_zero]
  norm_num

/-- C8: when the ray origin lies strictly inside a sphere, the discriminant is
positive, the near root is negative while the far root is positive, and the
Sphere arm reports a miss leaving the best record unchanged. -/
theorem claim_C8_inside_sphere_miss (center : Vector3) (radius : ℝ) (ray : Ray)
    (best : IntersectInfo)
    (h : Vector3.dot (ray.origin.sub center) (ray.origin.sub center) < radius * radius) :
    (-(Vector3.dot (ray.origin.sub center) ray.direction) -
        Real.sqrt (Vector3.dot (ray.origin.sub center) ray.direction *
          Vector3.dot (ray.origin.sub center) ray.direction -
          (Vector3.dot (ray.origin.sub center) (ray.origin.sub center) - radius * radius)) < 0) ∧
    (0 < -(Vector3.dot (ray.origin.sub center) ray.direction) +
        Real.sqrt (Vector3.dot (ray.origin.sub center) ray.direction *
          Vector3.dot (ray.origin.sub center) ray.direction -
          (Vector3.dot (ray.origin.sub center) (ray.origin.sub center) - radius * radius))) ∧
    Object.intersect (Object.Sphere center radius) ray best = (false, best) := by
  have hC : Vector3.dot (ray.origin.sub center) (ray.origin.sub center) - radius * radius < 0 :=
    sub_neg.mpr h
  have hD : Vector3.dot (ray.origin.sub center) ray.direction *
      Vector3.dot (ray.origin.sub center) ray.direction <
      Vector3.dot (ray.origin.sub center) ray.direction *
        Vector3.dot (ray.origin.sub center) ray.direction -
        (Vector3.dot (ray.origin.sub center) (ray.origin.sub center) - radius * radius) := by
    linarith
  have habs : |Vector3.dot (ray.origin.sub center) ray.direction| <
      Real.sqrt (Vector3.dot (ray.origin.sub center) ray.direction *
        Vector3.dot (ray.origin.sub center) ray.direction -
        (Vector3.dot (ray.origin.sub center) (ray.origin.sub center) - radius * radius)) := by
    rw [← Real.sqrt_mul_self_eq_abs]
    exact Real.sqrt_lt_sqrt (mul_self_nonneg _) hD
  have hDpos : 0 < Vector3.dot (ray.origin.sub center) ray.direction *
      Vector3.dot (ray.origin.sub center) ray.direction -
      (Vector3.dot (ray.origin.sub center) (ray.origin.sub center) - radius * radius) :=
    lt_of_le_of_lt (mul_self_nonneg _) hD
  have hnear : -(Vector3.dot (ray.origin.sub center) ray.direction) -
      Real.sqrt (Vector3.dot (ray.origin.sub center) ray.direction *
        Vector3.dot (ray.origin.sub center) ray.direction -
        (Vector3.dot (ray.origin.sub center) (ray.origin.sub center) - radius * radius)) < 0 := by
    have hlb := neg_abs_le (Vector3.dot (ray.origin.sub center) ray.direction)
    linarith [abs_nonneg (Vector3.dot (ray.origin.sub center) ray.direction)]
  refine ⟨hnear, ?_, ?_⟩
  · have hub := le_abs_self (Vector3.dot (ray.origin.sub center) ray.direction)
    linarith
  · have hhit : Object.hitT (Object.Sphere center radius) ray =
        some (-(Vector3.dot (ray.origin.sub center) ray.direction) -
          Real.sqrt (Vector3.dot (ray.origin.sub center) ray.direction *
            Vector3.dot (ray.origin.sub center) ray.direction -
            (Vector3.dot (ray.origin.sub center) (ray.origin.sub center) - radius * radius))) := by
      simp only [Object.hitT]
      rw [if_pos hDpos]
    apply Object.intersect_miss
    intro t ht hc
    rw [hhit] at ht
    cases ht
    exact absurd hc.1 (not_lt.mpr (le_of_lt hnear))

/-- C8 witness: a ray starting at the centre of the unit sphere at the origin
reports a miss. -/
theorem claim_C8_inside_sphere_miss_witness :
    Object.intersect (Object.Sphere ⟨0, 0, 0⟩ 1) ⟨⟨0, 0, 0⟩, ⟨0, 0, -1⟩⟩
        ⟨1e17, ⟨0, 0, 0⟩, ⟨0, 1, 0⟩⟩ =
      (false, ⟨1e17, ⟨0, 0, 0⟩, ⟨0, 1, 0⟩⟩) :=
  (claim_C8_inside_sphere_miss ⟨0, 0, 0⟩ 1 ⟨⟨0, 0, 0⟩, ⟨0, 0, -1⟩⟩
    ⟨1e17, ⟨0, 0, 0⟩, ⟨0, 1, 0⟩⟩
    (by simp [Vector3.sub, Vector3.dot])).2.2

/-- `ortho_basis` from the source: the seed axis `basis1` is the x axis when
`(n.x < 0.6) && (n.x > -0.6)`, else the y axis when `(n.y < 0.6) && (n.y >
-0.6)`, else the z axis when `(n.z < 0.6) && (n.z > -0.6)`, else the x axis;
then `basis0 = normalize(cross(basis1, n))`, the second tangent is
`normalize(cross(n, basis0))`, and the third vector is `n` itself. -/
def ortho_basis (n : Vector3) : Vector3 × Vector3 × Vector3 :=
  let basis1 :=
    if n.x < 0.6 ∧ -0.6 < n.x then (⟨1, 0, 0⟩ : Vector3)
    else if n.y < 0.6 ∧ -0.6 < n.y then ⟨0, 1, 0⟩
    else if n.z < 0.6 ∧ -0.6 < n.z then ⟨0, 0, 1⟩
    else ⟨1, 0, 0⟩
  let basis0 := (Vector3.cross basis1 n).normalized
  let basis1b := (Vector3.cross n basis0).normalized
  (basis0, basis1b, n)

/-- The basis construction exactly as the claim words it: the seed direction is
whichever world axis (x, then y, then z, falling back to x) is NOT within
`[-0.6, 0.6]` of the normal's corresponding component, the tangents are
derived from that seed the same way. -/
def ortho_basis_claimed (n : Vector3) : Vector3 × Vector3 × Vector3 :=
  let seed :=
    if ¬(-0.6 ≤ n.x ∧ n.x ≤ 0.6) then (⟨1, 0, 0⟩ : Vector3)
    else if ¬(-0.6 ≤ n.y ∧ n.y ≤ 0.6) then ⟨0, 1, 0⟩
    else if ¬(-0.6 ≤ n.z ∧ n.z ≤ 0.6) then ⟨0, 0, 1⟩
    else ⟨1, 0, 0⟩
  let tangent0 := (Vector3.cross seed n).normalized
  let tangent1 := (Vector3.cross n tangent0).normalized
  (tangent0, tangent1, n)

/-- The seed-axis selection the source actually performs: the first world axis
whose corresponding component of `n` lies strictly inside `(-0.6, 0.6)`,
falling back to the x axis. -/
def seed_axis (n : Vector3) : Vector3 :=
  if n.x < 0.6 ∧ -0.6 < n.x then (⟨1, 0, 0⟩ : Vector3)
  else if n.y < 0.6 ∧ -0.6 < n.y then ⟨0, 1, 0⟩
  else if n.z < 0.6 ∧ -0.6 < n.z then ⟨0, 0, 1⟩
  else ⟨1, 0, 0⟩

theorem normalized_unit_z : Vector3.normalized ⟨0, 0, 1⟩ = (⟨0, 0, 1⟩ : Vector3) := by
  rw [Vector3.normalized]
  have hd : Vector3.dot ⟨0, 0, 1⟩ ⟨0, 0, 1⟩ = 1 := by
    simp [Vector3.dot]
  rw [hd, Real.sqrt_one, if_pos (Or.inr (by norm_num))]
  simp only [Vector3.mk.injEq]
  norm_num

theorem normalized_unit_x : Vector3.normalized ⟨1, 0, 0⟩ = (⟨1, 0, 0⟩ : Vector3) := by
  rw [Vector3.normalized]
  have hd : Vector3.dot ⟨1, 0, 0⟩ ⟨1, 0, 0⟩ = 1 := by
    simp [Vector3.dot]
  rw [hd, Real.sqrt_one, if_pos (Or.inr (by norm_num))]
  simp only [Vector3.mk.injEq]
  norm_num

theorem normalized_zero : Vector3.normalized ⟨0, 0, 0⟩ = (⟨0, 0, 0⟩ : Vector3) := by
  rw [Vector3.normalized]
  have hd : Vector3.dot ⟨0, 0, 0⟩ ⟨0, 0, 0⟩ = 0 := by
    simp [Vector3.dot]
  rw [hd, Real.sqrt_zero, if_neg]
  rintro (h | h) <;> norm_num at h

/-- Evaluation of the source basis at the ground-plane normal (0,1,0). -/
theorem ortho_basis_ground :
    ortho_basis ⟨0, 1, 0⟩ = ((⟨0, 0, 1⟩ : Vector3), (⟨1, 0, 0⟩ : Vector3), (⟨0, 1, 0⟩ : Vector3)) := by
  rw [ortho_basis]
  have c1 : Vector3.cross ⟨1, 0, 0⟩ ⟨0, 1, 0⟩ = (⟨0, 0, 1⟩ : Vector3) := by
    simp only [Vector3.cross, Vector3.mk.injEq]
    norm_num
  rw [if_pos (⟨by norm_num, by norm_num⟩ :
    (⟨0, 1, 0⟩ : Vector3).x < 0.6 ∧ -0.6 < (⟨0, 1, 0⟩ : Vector3).x), c1, normalized_unit_z]
  have c2 : Vector3.cross ⟨0, 1, 0⟩ ⟨0, 0, 1⟩ = (⟨1, 0, 0⟩ : Vector3) := by
    simp only [Vector3.cross, Vector3.mk.injEq]
    norm_num
  rw [c2, normalized_unit_x]

/-- Evaluation of the claim-worded basis at the ground-plane normal: it picks
the y axis — the normal itself — as seed, so both tangents degenerate to the
zero vector. -/
theorem ortho_basis_claimed_ground :
    ortho_basis_claimed ⟨0, 1, 0⟩ =
      ((⟨0, 0, 0⟩ : Vector3), (⟨0, 0, 0⟩ : Vector3), (⟨0, 1, 0⟩ : Vector3)) := by
  rw [ortho_basis_claimed]
  rw [if_neg (by norm_num : ¬¬(-0.6 ≤ (⟨0, 1, 0⟩ : Vector3).x ∧ (⟨0, 1, 0⟩ : Vector3).x ≤ 0.6))]
  rw [if_pos (by norm_num : ¬(-0.6 ≤ (⟨0, 1, 0⟩ : Vector3).y ∧ (⟨0, 1, 0⟩ : Vector3).y ≤ 0.6))]
  have c1 : Vector3.cross ⟨0, 1, 0⟩ ⟨0, 1, 0⟩ = (⟨0, 0, 0⟩ : Vector3) := by
    simp only [Vector3.cross, Vector3.mk.injEq]
    norm_num
  rw [c1, normalized_zero]
  have c2 : Vector3.cross ⟨0, 1, 0⟩ ⟨0, 0, 0⟩ = (⟨0, 0, 0⟩ : Vector3) := by
    simp only [Vector3.cross, Vector3.mk.injEq]
    norm_num
  rw [c2, normalized_zero]

/-- C4 counterexample: at the ground-plane normal (0,1,0) the code does not
implement the claim's seed rule — the claim's rule would seed with the normal
itself and collapse the tangents to zero, while the code seeds with the x
axis. -/
theorem claim_C4_counterexample :
    ortho_basis ⟨0, 1, 0⟩ ≠ ortho_basis_claimed ⟨0, 1, 0⟩ := by
  rw [ortho_basis_ground, ortho_basis_claimed_ground]
  intro h
  have hz := congrArg (fun p : Vector3 × Vector3 × Vector3 => p.1.z) h
  norm_num at hz

/-- C4 amended: `ortho_basis` seeds with whichever world axis (x, then y, then
z, falling back to x) has the normal's corresponding component strictly
WITHIN `(-0.6, 0.6)`, then returns `tangent0 = normalize(cross(seed, n))`,
`tangent1 = normalize(cross(n, tangent0))` and `n` itself. -/
theorem claim_C4_ortho_basis (n : Vector3) :
    ((ortho_basis n).1 = (Vector3.cross (seed_axis n) n).normalized ∧
     (ortho_basis n).2.1 = (Vector3.cross n (ortho_basis n).1).normalized ∧
     (ortho_basis n).2.2 = n) ∧
    ((-0.6 < n.x ∧ n.x < 0.6) → seed_axis n = ⟨1, 0, 0⟩) ∧
    (¬(-0.6 < n.x ∧ n.x < 0.6) → (-0.6 < n.y ∧ n.y < 0.6) → seed_axis n = ⟨0, 1, 0⟩) ∧
    (¬(-0.6 < n.x ∧ n.x < 0.6) → ¬(-0.6 < n.y ∧ n.y < 0.6) → (-0.6 < n.z ∧ n.z < 0.6) →
      seed_axis n = ⟨0, 0, 1⟩) ∧
    (¬(-0.6 < n.x ∧ n.x < 0.6) → ¬(-0.6 < n.y ∧ n.y < 0.6) → ¬(-0.6 < n.z ∧ n.z < 0.6) →
      seed_axis n = ⟨1, 0, 0⟩) := by
  refine ⟨⟨rfl, rfl, rfl⟩, ?_, ?_, ?_, ?_⟩
  · intro h
    rw [seed_axis, if_pos ⟨h.2, h.1⟩]
  · intro hnx h
    rw [seed_axis, if_neg (fun hc => hnx ⟨hc.2, hc.1⟩), if_pos ⟨h.2, h.1⟩]
  · intro hnx hny h
    rw [seed_axis, if_neg (fun hc => hnx ⟨hc.2, hc.1⟩), if_neg (fun hc => hny ⟨hc.2, hc.1⟩),
      if_pos ⟨h.2, h.1⟩]
  · intro hnx hny hnz
    rw [seed_axis, if_neg (fun hc => hnx ⟨hc.2, hc.1⟩), if_neg (fun hc => hny ⟨hc.2, hc.1⟩),
      if_neg (fun hc => hnz ⟨hc.2, hc.1⟩)]

/-- C4 witness: at the ground-plane normal (0,1,0) the x component 0 is within
(-0.6, 0.6), so the seed is the x axis and the basis is as computed. -/
theorem claim_C4_ortho_basis_witness :
    seed_axis ⟨0, 1, 0⟩ = (⟨1, 0, 0⟩ : Vector3) ∧
    (ortho_basis ⟨0, 1, 0⟩).2.2 = (⟨0, 1, 0⟩ : Vector3) :=
  ⟨(claim_C4_ortho_basis ⟨0, 1, 0⟩).2.1 ⟨by norm_num, by norm_num⟩,
   (claim_C4_ortho_basis ⟨0, 1, 0⟩).1.2.2⟩

/-- A pixel, `struct Pixel { r, g, b : u8 }`; channel bytes are modelled as
naturals (the clamp keeps them at most 255). -/
structure Pixel where
  r : ℕ
  g : ℕ
  b : ℕ

/-- `Pixel::new_with_clamp(value, mag)`: `v = (value * mag) as uint` (float to
unsigned conversion, modelled as the floor, clipped to 0 for negative input),
`i = min(255, v)`, and `i` replicated into the r, g and b channels. -/
def new_with_clamp (value mag : ℝ) : Pixel :=
  ⟨min 255 (⌊value * mag⌋.toNat), min 255 (⌊value * mag⌋.toNat), min 255 (⌊value * mag⌋.toNat)⟩

/-- The per-pixel resolution step at the end of `render_line`: a sub-sample
occlusion accumulator above the 0.0001 threshold becomes
`new_with_clamp(occlusion / (nsubsamples * nsubsamples), 255.0)`, anything
else becomes the black pixel. -/
def resolvePixel (occlusion : ℝ) (nsubsamples : ℕ) : Pixel :=
  if 0.0001 < occlusion then
    new_with_clamp (occlusion / ((nsubsamples * nsubsamples : ℕ) : ℝ)) 255
  else ⟨0, 0, 0⟩

/-- C5: whenever the sub-pixel occlusion accumulator exceeds 0.0001 the pixel
is the accumulator averaged over the sub-sample grid, scaled by 255, floored,
clamped above at 255 and replicated into r, g and b; otherwise the pixel is
exactly black; and an occlusion ratio of 1.0 over 4 subsamples (accumulator 4
with a 2-by-2 grid) yields intensity byte 255. -/
theorem claim_C5_pixel_resolve :
    (∀ occlusion : ℝ, ∀ n : ℕ,
      (0.0001 < occlusion →
        resolvePixel occlusion n = new_with_clamp (occlusion / ((n * n : ℕ) : ℝ)) 255 ∧
        (resolvePixel occlusion n).r =
          min 255 (⌊occlusion / ((n * n : ℕ) : ℝ) * 255⌋.toNat) ∧
        (resolvePixel occlusion n).r = (resolvePixel occlusion n).g ∧
        (resolvePixel occlusion n).g = (resolvePixel occlusion n).b) ∧
      (¬(0.0001 < occlusion) → resolvePixel occlusion n = ⟨0, 0, 0⟩)) ∧
    resolvePixel 4 2 = ⟨255, 255, 255⟩ := by
  constructor
  · intro occlusion n
    constructor
    · intro h
      have he : resolvePixel occlusion n = new_with_clamp (occlusion / ((n * n : ℕ) : ℝ)) 255 := by
        rw [resolvePixel, if_pos h]
      exact ⟨he, by rw [he]; rfl, by rw [he]; rfl, by rw [he]; rfl⟩
    · intro h
      rw [resolvePixel, if_neg h]
  · rw [resolvePixel, if_pos (by norm_num : (0.0001:ℝ) < 4), new_with_clamp]
    have hc : (4:ℝ) / ((2 * 2 : ℕ) : ℝ) * 255 = ((255:ℤ):ℝ) := by norm_num
    rw [hc, Int.floor_intCast]
    simp only [Pixel.mk.injEq]
    norm_num

/-- C5 witness: a zero accumulator is below the threshold and yields the black
pixel. -/
theorem claim_C5_pixel_resolve_witness : resolvePixel 0 2 = ⟨0, 0, 0⟩ :=
  (claim_C5_pixel_resolve.1 0 2).2 (by norm_num)

/-- Byte stream produced by `saveppm` in `src/src/main.rs`: the header written
is the fixed string `"P6\n256 256\n255\n"` — the line formatting the header
from the `width`/`height` arguments is commented out in the source — followed
by the bytes r, g, b of each pixel in order. -/
def saveppm_bytes (width height : ℕ) (pixels : List Pixel) : List ℕ :=
  ("P6\n256 256\n255\n".toList.map Char.toNat) ++
    pixels.flatMap (fun p => [p.r, p.g, p.b])

/-- Byte stream produced by `saveppm` in the `src/ao.rs` revision, whose
header is formatted from the `width` and `height` arguments — also the byte
stream the claim describes. -/
def saveppm_bytes_ao (width height : ℕ) (pixels : List Pixel) : List ℕ :=
  (("P6\n" ++ toString width ++ " " ++ toString height ++ "\n255\n").toList.map Char.toNat) ++
    pixels.flatMap (fun p => [p.r, p.g, p.b])

theorem pixel_bytes_length (pixels : List Pixel) :
    (pixels.flatMap (fun p => [p.r, p.g, p.b])).length = 3 * pixels.length := by
  induction pixels with
  | nil => rfl
  | cons p l ih =>
    rw [List.flatMap_cons, List.length_append, ih, List.length_cons]
    simp only [List.length_cons, List.length_nil]
    ring

/-- C9 counterexample: called with width = height = 2 and four pixels, the
`main.rs` `saveppm` does not write the header `"P6\n2 2\n255\n"` the claim
prescribes — it writes the fixed 256-by-256 header. -/
theorem claim_C9_counterexample :
    saveppm_bytes 2 2 [⟨0, 0, 0⟩, ⟨0, 0, 0⟩, ⟨0, 0, 0⟩, ⟨0, 0, 0⟩] ≠
      saveppm_bytes_ao 2 2 [⟨0, 0, 0⟩, ⟨0, 0, 0⟩, ⟨0, 0, 0⟩, ⟨0, 0, 0⟩] := by
  decide

/-- C9 amended: the `main.rs` `saveppm` writes the fixed header
`"P6\n256 256\n255\n"` whatever the width and height arguments, followed by
exactly 3 bytes per pixel in channel order r, g, b — `width*height*3` bytes
exactly when given `width*height` pixels, 196608 bytes for the default
256-by-256 frame; the `ao.rs` revision formats the header from the arguments
as the claim states, and the two agree at the default 256-by-256 size. -/
theorem claim_C9_saveppm (width height : ℕ) (pixels : List Pixel) :
    saveppm_bytes width height pixels =
      ("P6\n256 256\n255\n".toList.map Char.toNat) ++
        pixels.flatMap (fun p => [p.r, p.g, p.b]) ∧
    (saveppm_bytes width height pixels).length = 15 + 3 * pixels.length ∧
    (pixels.length = 256 * 256 → (saveppm_bytes width height pixels).length = 15 + 196608) ∧
    saveppm_bytes_ao width height pixels =
      (("P6\n" ++ toString width ++ " " ++ toString height ++ "\n255\n").toList.map Char.toNat) ++
        pixels.flatMap (fun p => [p.r, p.g, p.b]) ∧
    (width = 256 → height = 256 →
      saveppm_bytes width height pixels = saveppm_bytes_ao width height pixels) := by
  have hlen : (saveppm_bytes width height pixels).length = 15 + 3 * pixels.length := by
    rw [saveppm_bytes, List.length_append, pixel_bytes_length]
    norm_num
  refine ⟨rfl, hlen, ?_, rfl, ?_⟩
  · intro hp
    rw [hlen, hp]
  · intro hw hh
    subst hw
    subst hh
    rw [saveppm_bytes, saveppm_bytes_ao]
    have hhdr : "P6\n256 256\n255\n" =
        "P6\n" ++ toString (256:ℕ) ++ " " ++ toString (256:ℕ) ++ "\n255\n" := by decide
    rw [hhdr]

/-- C9 witness: the two revisions agree on the default 256-by-256 header, and
a full 65536-pixel frame yields 196608 payload bytes after the 15-byte
header. -/
theorem claim_C9_saveppm_witness :
    saveppm_bytes 256 256 [] = saveppm_bytes_ao 256 256 [] ∧
    (saveppm_bytes 0 0 (List.replicate (256 * 256) ⟨0, 0, 0⟩)).length = 15 + 196608 :=
  ⟨(claim_C9_saveppm 256 256 []).2.2.2.2 rfl rfl,
   (claim_C9_saveppm 0 0 (List.replicate (256 * 256) ⟨0, 0, 0⟩)).2.2.1
     (List.length_replicate _ _)⟩

/-- `static NAO_SAMPLES: uint = 8`. -/
def NAO_SAMPLES : ℕ := 8

/-- `static NSUBSAMPLES: uint = 2`. -/
def NSUBSAMPLES : ℕ := 2

/-- The object loop inside `ambient_occlusion`: objects are tried in
declaration order against the shared occlusion record and the loop `break`s at
the first object whose `intersect` reports a hit. -/
def occludedStep (objects : List Object) (ray : Ray) (isect : IntersectInfo) :
    Bool × IntersectInfo :=
  match objects with
  | [] => (false, isect)
  | o :: rest =>
    let r := Object.intersect o ray isect
    if r.1 then (true, r.2) else occludedStep rest ray r.2

/-- World-space direction of one hemisphere sample from the two uniform draws:
`theta = sqrt(u1)`, `phi = 2π*u2`, local coordinates
`(cos(phi)*theta, sin(phi)*theta, sqrt(1 - theta*theta))` pushed through the
basis columns. -/
def aoSampleDirection (b0 b1 b2 : Vector3) (u1 u2 : ℝ) : Vector3 :=
  let theta := Real.sqrt u1
  let phi := 2 * Real.pi * u2
  let x := Real.cos phi * theta
  let y := Real.sin phi * theta
  let z := Real.sqrt (1 - theta * theta)
  ⟨x * b0.x + y * b1.x + z * b2.x,
   x * b0.y + y * b1.y + z * b2.y,
   x * b0.z + y * b1.z + z * b2.z⟩

/-- The occlusion ray of sample `k` (row-major index into the 8×8 grid): the
origin is the hit position offset by `eps = 0.0001` along the hit normal, and
the direction comes from draws `2k` and `2k+1` of the generator stream pushed
through `ortho_basis` of the hit normal. -/
def aoSampleRay (isect : IntersectInfo) (rng : ℕ → ℝ) (k : ℕ) : Ray :=
  ⟨isect.position.add (isect.normal.scale 0.0001),
   aoSampleDirection (ortho_basis isect.normal).1 (ortho_basis isect.normal).2.1
     (ortho_basis isect.normal).2.2 (rng (2 * k)) (rng (2 * k + 1))⟩

/-- The body of the sampling loop of `ambient_occlusion` for sample `k`: reset
the shared occlusion record's distance to 1e9, cast the sample ray with the
break-at-first-hit object loop, and add 1.0 to the accumulator when it hit. -/
def aoSampleStep (objects : List Object) (isect : IntersectInfo) (rng : ℕ → ℝ)
    (st : ℝ × IntersectInfo) (k : ℕ) : ℝ × IntersectInfo :=
  let r := occludedStep objects (aoSampleRay isect rng k) ⟨1e9, st.2.position, st.2.normal⟩
  (if r.1 then st.1 + 1 else st.1, r.2)

/-- `ambient_occlusion(isect, objects)`, with the task-local random generator
modelled as the stream `rng`: run the `NAO_SAMPLES × NAO_SAMPLES` grid over
the shared occlusion record (initially distance 1e9, position (0,0,0), normal
(0,1,0)) and return `(theta*phi - occlusion) / (theta*phi)` for
`theta = phi = NAO_SAMPLES`. -/
def ambient_occlusion (isect : IntersectInfo) (objects : List Object) (rng : ℕ → ℝ) : ℝ :=
  let res := (List.range (NAO_SAMPLES * NAO_SAMPLES)).foldl (aoSampleStep objects isect rng)
    (0, ⟨1e9, ⟨0, 0, 0⟩, ⟨0, 1, 0⟩⟩)
  ((NAO_SAMPLES : ℝ) * (NAO_SAMPLES : ℝ) - res.1) / ((NAO_SAMPLES : ℝ) * (NAO_SAMPLES : ℝ))

/-- The number of the 64 hemisphere samples whose occlusion ray hits some
scene object. -/
def occlusionCount (isect : IntersectInfo) (objects : List Object) (rng : ℕ → ℝ) : ℕ :=
  (List.range (NAO_SAMPLES * NAO_SAMPLES)).countP (fun k =>
    (occludedStep objects (aoSampleRay isect rng k) ⟨1e9, ⟨0, 0, 0⟩, ⟨0, 1, 0⟩⟩).1)

/-- The break-at-first-hit loop reports a hit exactly when some object offers
a candidate distance beating the record's distance. -/
theorem occludedStep_fst_iff (objects : List Object) (ray : Ray) (isect : IntersectInfo) :
    (occludedStep objects ray isect).1 = true ↔
      ∃ o ∈ objects, ∃ t, Object.hitT o ray = some t ∧ 0 < t ∧ t < isect.distance := by
  induction objects generalizing isect with
  | nil =>
    simp [occludedStep]
  | cons o rest ih =>
    cases hr : (Object.intersect o ray isect).1 with
    | true =>
      have hstep : occludedStep (o :: rest) ray isect = (true, (Object.intersect o ray isect).2) := by
        simp only [occludedStep]
        rw [if_pos hr]
      rw [hstep]
      simp only [List.mem_cons]
      constructor
      · intro _
        obtain ⟨t, ht, h0, hd⟩ := (Object.intersect_fst_iff o ray isect).mp hr
        exact ⟨o, Or.inl rfl, t, ht, h0, hd⟩
      · intro _
        trivial
    | false =>
      have hfr := Object.intersect_frame o ray isect hr
      have hstep : occludedStep (o :: rest) ray isect = occludedStep rest ray isect := by
        simp only [occludedStep]
        rw [if_neg (by rw [hr]; simp), hfr]
      rw [hstep, ih]
      simp only [List.mem_cons]
      constructor
      · rintro ⟨o₂, ho₂, hrest⟩
        exact ⟨o₂, Or.inr ho₂, hrest⟩
      · rintro ⟨o₂, ho₂ | ho₂, t, ht, h0, hd⟩
        · exact absurd ((Object.intersect_fst_iff o ray isect).mpr ⟨t, ho₂ ▸ ht, h0, hd⟩)
            (by rw [hr]; simp)
        · exact ⟨o₂, ho₂, t, ht, h0, hd⟩

/-- The hit flag of the break-at-first-hit loop depends on the incoming record
only through its distance. -/
theorem occludedStep_fst_congr (objects : List Object) (ray : Ray) (i j : IntersectInfo)
    (h : i.distance = j.distance) :
    (occludedStep objects ray i).1 = (occludedStep objects ray j).1 := by
  apply Bool.eq_iff_iff.mpr
  rw [occludedStep_fst_iff, occludedStep_fst_iff, h]

/-- Running the sampling loop adds to the accumulator exactly the number of
samples whose ray hits some object. -/
theorem aoLoop_count (objects : List Object) (isect : IntersectInfo) (rng : ℕ → ℝ)
    (ks : List ℕ) (st : ℝ × IntersectInfo) :
    (ks.foldl (aoSampleStep objects isect rng) st).1 =
      st.1 + ((ks.countP (fun k =>
        (occludedStep objects (aoSampleRay isect rng k) ⟨1e9, ⟨0, 0, 0⟩, ⟨0, 1, 0⟩⟩).1)) : ℕ) := by
  induction ks generalizing st with
  | nil =>
    simp [List.countP_nil]
  | cons k ks ih =>
    rw [List.foldl_cons, ih, List.countP_cons]
    have hflag : (occludedStep objects (aoSampleRay isect rng k)
          ⟨1e9, st.2.position, st.2.normal⟩).1 =
        (occludedStep objects (aoSampleRay isect rng k) ⟨1e9, ⟨0, 0, 0⟩, ⟨0, 1, 0⟩⟩).1 :=
      occludedStep_fst_congr _ _ _ _ rfl
    show (if (occludedStep objects (aoSampleRay isect rng k)
        ⟨1e9, st.2.position, st.2.normal⟩).1 then st.1 + 1 else st.1) + _ = _
    rw [hflag]
    cases hb : (occludedStep objects (aoSampleRay isect rng k) ⟨1e9, ⟨0, 0, 0⟩, ⟨0, 1, 0⟩⟩).1 with
    | true =>
      rw [if_pos rfl, if_pos rfl]
      push_cast
      ring
    | false =>
      rw [if_neg (by simp), if_neg (by simp)]
      push_cast
      ring

/-- C3: `ambient_occlusion` returns `(totalSamples - occlusionCount) /
totalSamples` over its fixed 8×8 = 64 hemisphere samples — the unoccluded
fraction — the count never exceeds 64, and the returned value lies in the
closed interval [0, 1]; a sample counts as occluded exactly when some scene
object offers a candidate hit distance in (0, 1e9) along its occlusion ray. -/
theorem claim_C3_ambient_occlusion (isect : IntersectInfo) (objects : List Object)
    (rng : ℕ → ℝ) :
    ambient_occlusion isect objects rng =
      ((64 : ℝ) - (occlusionCount isect objects rng : ℕ)) / 64 ∧
    NAO_SAMPLES * NAO_SAMPLES = 64 ∧
    occlusionCount isect objects rng ≤ 64 ∧
    0 ≤ ambient_occlusion isect objects rng ∧
    ambient_occlusion isect objects rng ≤ 1 ∧
    (∀ k, (occludedStep objects (aoSampleRay isect rng k) ⟨1e9, ⟨0, 0, 0⟩, ⟨0, 1, 0⟩⟩).1 = true ↔
      ∃ o ∈ objects, ∃ t, Object.hitT o (aoSampleRay isect rng k) = some t ∧ 0 < t ∧ t < 1e9) := by
  have hcount : occlusionCount isect objects rng ≤ 64 := by
    have hle := List.countP_le_length (fun k =>
      (occludedStep objects (aoSampleRay isect rng k) ⟨1e9, ⟨0, 0, 0⟩, ⟨0, 1, 0⟩⟩).1)
      (l := (List.range (NAO_SAMPLES * NAO_SAMPLES)))
    rw [List.length_range] at hle
    exact hle
  have heq : ambient_occlusion isect objects rng =
      ((64 : ℝ) - (occlusionCount isect objects rng : ℕ)) / 64 := by
    rw [ambient_occlusion]
    rw [aoLoop_count objects isect rng (List.range (NAO_SAMPLES * NAO_SAMPLES))
      (0, ⟨1e9, ⟨0, 0, 0⟩, ⟨0, 1, 0⟩⟩)]
    rw [occlusionCount]
    show ((NAO_SAMPLES : ℝ) * (NAO_SAMPLES : ℝ) - ((0 : ℝ) + _)) /
        ((NAO_SAMPLES : ℝ) * (NAO_SAMPLES : ℝ)) = _
    rw [NAO_SAMPLES]
    push_cast
    ring_nf
  have hc0 : (0 : ℝ) ≤ (occlusionCount isect objects rng : ℕ) := Nat.cast_nonneg _
  have hc64 : ((occlusionCount isect objects rng : ℕ) : ℝ) ≤ 64 := by
    exact_mod_cast hcount
  refine ⟨heq, rfl, hcount, ?_, ?_, ?_⟩
  · rw [heq]
    apply div_nonneg _ (by norm_num)
    linarith
  · rw [heq]
    rw [div_le_one (by norm_num)]
    linarith
  · intro k
    exact occludedStep_fst_iff objects (aoSampleRay isect rng k) ⟨1e9, ⟨0, 0, 0⟩, ⟨0, 1, 0⟩⟩

end

end AoBench
